import Mathlib

/-!
Verification of the Juniper Bible deployment engine
(`internal/deploy`: manifest.go, local.go, remote.go, deploy.go, types.go).

The Go code is shallowly embedded: Go maps become association lists with
unique keys, the target filesystem becomes an explicit record of release
directories plus the resolved `current` symlink target, hardlinked files
become an explicit path-to-inode indirection, and the shell scripts run by
the remote deployer are translated to the same state transformers as the
local operations they mirror.  Concurrency in the manifest builder is
serialized: the worker pool processes the enumerated file list in order,
and the buffered-one error channel becomes a first-error option.
-/

namespace Juniper

/-- `FileInfo` from types.go: sha256 hex digest and size (int64, modelled as
`Int`). -/
structure FileInfo where
  sha256 : String
  size : Int
deriving DecidableEq, Repr

/-- A Go `map[string]FileInfo`, modelled as an association list; theorems
about it carry the no-duplicate-keys invariant every Go map satisfies. -/
abbrev FileMap := List (String × FileInfo)

/-- `Manifest` from types.go.  `buildTime` is the `time.Time` field,
modelled as an integer timestamp with an injective serialization. -/
structure Manifest where
  files : FileMap
  releaseID : String
  buildTime : Int
deriving DecidableEq, Repr

/-- `Delta` from types.go. -/
structure Delta where
  changed : List String
  unchanged : List String
  deleted : List String
deriving DecidableEq, Repr

/-- Keyed lookup in a `FileMap` (a Go map index expression). -/
def lookupFile (m : FileMap) (p : String) : Option FileInfo :=
  (m.find? (fun e => e.1 = p)).map (fun e => e.2)

/-- The per-path test of `findChangedFiles` (manifest.go): changed when the
path is absent remotely or the digests differ. -/
def isChanged (remote : FileMap) (p : String) (i : FileInfo) : Bool :=
  match lookupFile remote p with
  | none => true
  | some ri => decide (ri.sha256 ≠ i.sha256)

/-- `findChangedFiles` (manifest.go): partition of the local key set. -/
def findChangedFiles (localM remoteM : Manifest) : List String × List String :=
  ((localM.files.filter (fun e => isChanged remoteM.files e.1 e.2)).map (fun e => e.1),
   (localM.files.filter (fun e => !isChanged remoteM.files e.1 e.2)).map (fun e => e.1))

/-- `findDeletedFiles` (manifest.go): remote keys absent locally. -/
def findDeletedFiles (localM remoteM : Manifest) : List String :=
  (remoteM.files.filter (fun e => (lookupFile localM.files e.1).isNone)).map (fun e => e.1)

/-- `sort.Strings` (ascending). -/
def sortStrings (l : List String) : List String :=
  l.insertionSort (fun a b => a ≤ b)

/-- `CalculateDelta` (manifest.go). -/
def CalculateDelta (localM remoteM : Manifest) : Delta :=
  let cu := findChangedFiles localM remoteM
  let deleted := findDeletedFiles localM remoteM
  ⟨sortStrings cu.1, sortStrings cu.2, sortStrings deleted⟩

/-- Keys of a `FileMap` (the Go map's key set, in entry order). -/
def keysOf (m : FileMap) : List String :=
  m.map (fun e => e.1)

/-- `(m *Manifest) TotalSize` (manifest.go). -/
def TotalSize (m : Manifest) : Int :=
  m.files.foldl (fun acc e => acc + e.2.size) 0

/-- `DeltaSize` (manifest.go). -/
def DeltaSize (m : Manifest) (changed : List String) : Int :=
  changed.foldl
    (fun acc p =>
      match lookupFile m.files p with
      | some i => acc + i.size
      | none => acc) 0

lemma lookupFile_eq_none_iff (m : FileMap) (p : String) :
    lookupFile m p = none ↔ p ∉ keysOf m := by
  unfold lookupFile keysOf
  cases h : m.find? (fun e => e.1 = p) with
  | none =>
    refine ⟨fun _ hmem => ?_, fun _ => rfl⟩
    rcases List.mem_map.mp hmem with ⟨e, he, hep⟩
    have := List.find?_eq_none.mp h e he
    simp [hep] at this
  | some e =>
    have hp : e.1 = p := by
      have := List.find?_some h
      simpa using this
    have hmem : e ∈ m := List.mem_of_find?_eq_some h
    refine ⟨fun hcontra => ?_, fun hnot => ?_⟩
    · exact absurd hcontra (by simp)
    · exact absurd (hp ▸ List.mem_map_of_mem (fun x => x.1) hmem) hnot

lemma lookupFile_isSome_iff (m : FileMap) (p : String) :
    (∃ i, lookupFile m p = some i) ↔ p ∈ keysOf m := by
  constructor
  · intro ⟨i, hi⟩
    by_contra hk
    rw [← lookupFile_eq_none_iff] at hk
    simp [hk] at hi
  · intro hk
    cases h : lookupFile m p with
    | none => exact absurd hk ((lookupFile_eq_none_iff m p).mp h)
    | some i => exact ⟨i, rfl⟩

lemma lookupFile_eq_some_mem (m : FileMap) (p : String) (i : FileInfo)
    (h : lookupFile m p = some i) : (p, i) ∈ m := by
  unfold lookupFile at h
  cases hf : m.find? (fun e => e.1 = p) with
  | none => simp [hf] at h
  | some e =>
    have hmem : e ∈ m := List.mem_of_find?_eq_some hf
    have hp : e.1 = p := by simpa using List.find?_some hf
    have hi : e.2 = i := by simp [hf] at h; exact h
    have : e = (p, i) := by cases e; simp_all
    exact this ▸ hmem

lemma lookupFile_eq_some_iff (m : FileMap) (p : String) (i : FileInfo)
    (hnd : (keysOf m).Nodup) : lookupFile m p = some i ↔ (p, i) ∈ m := by
  constructor
  · intro h
    unfold lookupFile at h
    cases hf : m.find? (fun e => e.1 = p) with
    | none => simp [hf] at h
    | some e =>
      have hmem : e ∈ m := List.mem_of_find?_eq_some hf
      have hp : e.1 = p := by simpa using List.find?_some hf
      have hi : e.2 = i := by simp [hf] at h; exact h
      have : e = (p, i) := by
        cases e; simp_all
      exact this ▸ hmem
  · intro hmem
    have hsome : ∃ j, lookupFile m p = some j :=
      (lookupFile_isSome_iff m p).mpr (List.mem_map_of_mem (fun x => x.1) hmem)
    rcases hsome with ⟨j, hj⟩
    -- the found entry and (p, i) share the key p, hence are equal by Nodup
    unfold lookupFile at hj
    cases hf : m.find? (fun e => e.1 = p) with
    | none => simp [hf] at hj
    | some e =>
      have hmem' : e ∈ m := List.mem_of_find?_eq_some hf
      have hp : e.1 = p := by simpa using List.find?_some hf
      have hnd' : (m.map (fun x : String × FileInfo => x.1)).Nodup := hnd
      have hinj := List.inj_on_of_nodup_map (f := fun x : String × FileInfo => x.1) hnd'
      have : e = (p, i) := hinj hmem' hmem (by simpa using hp)
      simp [lookupFile, hf, this]

lemma isChanged_true_iff (remote : FileMap) (p : String) (i : FileInfo) :
    isChanged remote p i = true ↔
      (lookupFile remote p = none ∨
        ∃ ri, lookupFile remote p = some ri ∧ ri.sha256 ≠ i.sha256) := by
  unfold isChanged
  cases h : lookupFile remote p with
  | none => simp
  | some ri => simp [h]

lemma mem_filterMap_keys (f : String × FileInfo → Bool) (m : FileMap) (p : String) :
    p ∈ (m.filter f).map (fun e => e.1) ↔ ∃ i, (p, i) ∈ m ∧ f (p, i) = true := by
  constructor
  · intro h
    rcases List.mem_map.mp h with ⟨e, he, hep⟩
    rcases List.mem_filter.mp he with ⟨hm, hf⟩
    exact ⟨e.2, by cases e; simp_all, by cases e; simp_all⟩
  · intro ⟨i, hm, hf⟩
    exact List.mem_map.mpr ⟨(p, i), List.mem_filter.mpr ⟨hm, hf⟩, rfl⟩

lemma mem_sortStrings (l : List String) (p : String) :
    p ∈ sortStrings l ↔ p ∈ l := by
  unfold sortStrings
  exact List.mem_insertionSort _

lemma sortStrings_sorted (l : List String) :
    List.Sorted (fun a b : String => a ≤ b) (sortStrings l) :=
  List.sorted_insertionSort _ l

/-- Membership characterization of `(CalculateDelta localM remoteM).changed`:
`p` is changed iff it has a local entry that is remotely absent or
digest-mismatched. -/
lemma mem_changed_iff (localM remoteM : Manifest)
    (hl : (keysOf localM.files).Nodup) (p : String) :
    p ∈ (CalculateDelta localM remoteM).changed ↔
      ∃ i, lookupFile localM.files p = some i ∧
        (lookupFile remoteM.files p = none ∨
          ∃ ri, lookupFile remoteM.files p = some ri ∧ ri.sha256 ≠ i.sha256) := by
  unfold CalculateDelta findChangedFiles
  rw [mem_sortStrings, mem_filterMap_keys]
  constructor
  · intro ⟨i, hm, hf⟩
    exact ⟨i, (lookupFile_eq_some_iff _ _ _ hl).mpr hm, (isChanged_true_iff _ _ _).mp hf⟩
  · intro ⟨i, hm, hcond⟩
    exact ⟨i, (lookupFile_eq_some_iff _ _ _ hl).mp hm, (isChanged_true_iff _ _ _).mpr hcond⟩

/-- Membership characterization of `unchanged`: a local entry whose remote
digest matches. -/
lemma mem_unchanged_iff (localM remoteM : Manifest)
    (hl : (keysOf localM.files).Nodup) (p : String) :
    p ∈ (CalculateDelta localM remoteM).unchanged ↔
      ∃ i ri, lookupFile localM.files p = some i ∧
        lookupFile remoteM.files p = some ri ∧ ri.sha256 = i.sha256 := by
  unfold CalculateDelta findChangedFiles
  rw [mem_sortStrings, mem_filterMap_keys]
  constructor
  · intro ⟨i, hm, hf⟩
    have hnc : isChanged remoteM.files p i = false := by
      cases h : isChanged remoteM.files p i <;> simp_all
    unfold isChanged at hnc
    cases h : lookupFile remoteM.files p with
    | none => simp [h] at hnc
    | some ri =>
      rw [h] at hnc
      simp at hnc
      exact ⟨i, ri, (lookupFile_eq_some_iff _ _ _ hl).mpr hm, rfl, hnc⟩
  · intro ⟨i, ri, hm, hr, hsha⟩
    refine ⟨i, (lookupFile_eq_some_iff _ _ _ hl).mp hm, ?_⟩
    unfold isChanged
    simp [hr, hsha]

/-- Membership characterization of `deleted`: remote keys absent locally. -/
lemma mem_deleted_iff (localM remoteM : Manifest) (p : String) :
    p ∈ (CalculateDelta localM remoteM).deleted ↔
      p ∈ keysOf remoteM.files ∧ p ∉ keysOf localM.files := by
  unfold CalculateDelta findDeletedFiles
  rw [mem_sortStrings, mem_filterMap_keys]
  constructor
  · intro ⟨i, hm, hf⟩
    refine ⟨List.mem_map_of_mem (fun x => x.1) hm, ?_⟩
    rw [← lookupFile_eq_none_iff]
    cases h : lookupFile localM.files p <;> simp_all
  · intro ⟨hr, hnl⟩
    rcases (lookupFile_isSome_iff remoteM.files p).mpr hr with ⟨i, hi⟩
    refine ⟨i, lookupFile_eq_some_mem _ _ _ hi, ?_⟩
    have : lookupFile localM.files p = none := (lookupFile_eq_none_iff _ _).mpr hnl
    simp [this]

/-- C5: For every pair of manifests (local, remote), `CalculateDelta` returns a
`Delta` in which a local path is in `changed` iff it is absent from the remote
files or its sha256 digest differs, and in `unchanged` otherwise; `changed` and
`unchanged` are disjoint and their union is exactly the key set of the local
files; `deleted` is exactly the set of remote keys not in local keys; and all
three sequences are sorted ascending by path string.  (The no-duplicate-keys
hypothesis is the invariant of every Go map.) -/
theorem calculateDelta_spec (localM remoteM : Manifest)
    (hl : (keysOf localM.files).Nodup) :
    (∀ p, p ∈ (CalculateDelta localM remoteM).changed ↔
        ∃ i, lookupFile localM.files p = some i ∧
          (lookupFile remoteM.files p = none ∨
            ∃ ri, lookupFile remoteM.files p = some ri ∧ ri.sha256 ≠ i.sha256)) ∧
    (∀ p, p ∈ (CalculateDelta localM remoteM).unchanged ↔
        ∃ i ri, lookupFile localM.files p = some i ∧
          lookupFile remoteM.files p = some ri ∧ ri.sha256 = i.sha256) ∧
    (∀ p, ¬(p ∈ (CalculateDelta localM remoteM).changed ∧
        p ∈ (CalculateDelta localM remoteM).unchanged)) ∧
    (∀ p, (p ∈ (CalculateDelta localM remoteM).changed ∨
        p ∈ (CalculateDelta localM remoteM).unchanged) ↔ p ∈ keysOf localM.files) ∧
    (∀ p, p ∈ (CalculateDelta localM remoteM).deleted ↔
        p ∈ keysOf remoteM.files ∧ p ∉ keysOf localM.files) ∧
    List.Sorted (fun a b : String => a ≤ b) (CalculateDelta localM remoteM).changed ∧
    List.Sorted (fun a b : String => a ≤ b) (CalculateDelta localM remoteM).unchanged ∧
    List.Sorted (fun a b : String => a ≤ b) (CalculateDelta localM remoteM).deleted := by
  refine ⟨mem_changed_iff localM remoteM hl, mem_unchanged_iff localM remoteM hl,
    ?_, ?_, mem_deleted_iff localM remoteM, ?_, ?_, ?_⟩
  · intro p ⟨hc, hu⟩
    rcases (mem_changed_iff localM remoteM hl p).mp hc with ⟨i, hli, hcond⟩
    rcases (mem_unchanged_iff localM remoteM hl p).mp hu with ⟨i2, ri, hli2, hri, hsha⟩
    have hii : i = i2 := by rw [hli] at hli2; exact Option.some.inj hli2
    rcases hcond with hnone | ⟨ri2, hri2, hne⟩
    · rw [hnone] at hri; exact Option.noConfusion hri
    · rw [hri2] at hri
      have : ri2 = ri := Option.some.inj hri
      exact hne (by rw [this, hsha, hii])
  · intro p
    constructor
    · intro h
      rcases h with hc | hu
      · rcases (mem_changed_iff localM remoteM hl p).mp hc with ⟨i, hli, _⟩
        exact (lookupFile_isSome_iff _ _).mp ⟨i, hli⟩
      · rcases (mem_unchanged_iff localM remoteM hl p).mp hu with ⟨i, _, hli, _, _⟩
        exact (lookupFile_isSome_iff _ _).mp ⟨i, hli⟩
    · intro hk
      rcases (lookupFile_isSome_iff localM.files p).mpr hk with ⟨i, hi⟩
      cases hich : isChanged remoteM.files p i with
      | true =>
        exact Or.inl ((mem_changed_iff localM remoteM hl p).mpr
          ⟨i, hi, (isChanged_true_iff _ _ _).mp hich⟩)
      | false =>
        unfold isChanged at hich
        cases hr : lookupFile remoteM.files p with
        | none => rw [hr] at hich; simp at hich
        | some ri =>
          rw [hr] at hich
          simp at hich
          exact Or.inr ((mem_unchanged_iff localM remoteM hl p).mpr ⟨i, ri, hi, hr, hich⟩)
  · exact sortStrings_sorted ((findChangedFiles localM remoteM).1)
  · exact sortStrings_sorted ((findChangedFiles localM remoteM).2)
  · exact sortStrings_sorted (findDeletedFiles localM remoteM)

/-- The concrete delta example of spec §8: local `{a.txt: h1/10, b.txt: h2/20}`,
remote `{a.txt: h1/10, c.txt: h3/5}`. -/
def exLocalManifest : Manifest :=
  ⟨[("a.txt", ⟨"h1", 10⟩), ("b.txt", ⟨"h2", 20⟩)], "r-local", 0⟩

/-- Remote side of the concrete delta example. -/
def exRemoteManifest : Manifest :=
  ⟨[("a.txt", ⟨"h1", 10⟩), ("c.txt", ⟨"h3", 5⟩)], "r-remote", 0⟩

theorem calculateDelta_spec_witness :
    "b.txt" ∈ (CalculateDelta exLocalManifest exRemoteManifest).changed :=
  ((calculateDelta_spec exLocalManifest exRemoteManifest (by decide)).1 "b.txt").mpr
    ⟨⟨"h2", 20⟩, by decide, Or.inl (by decide)⟩

/-!
Manifest serialization (`WriteManifest` / `ReadManifest`, manifest.go).

The JSON text layer of Go's `encoding/json` is modelled at the JSON-value
level: the written file holds the encoded `Json` value.  Go marshals a
`map[string]FileInfo` with its keys sorted ascending, `releaseId` carries
`omitempty`, a missing field decodes to the zero value, and `buildTime`
(`time.Time`, injectively serialized) is modelled as its integer timestamp.
-/

/-- A JSON document, as produced and consumed by `encoding/json` for the
`Manifest`/`FileInfo` struct tags. -/
inductive Json where
  | str (s : String)
  | num (n : Int)
  | obj (fields : List (String × Json))
  | null

instance : DecidableRel (fun (a b : String × FileInfo) => a.1 ≤ b.1) :=
  fun a b => inferInstanceAs (Decidable (a.1 ≤ b.1))

/-- Go's map marshalling orders keys ascending. -/
def sortFileMap (m : FileMap) : FileMap :=
  m.insertionSort (fun a b => a.1 ≤ b.1)

/-- Marshalling of `FileInfo` (json tags `sha256`, `size`). -/
def encodeFileInfo (i : FileInfo) : Json :=
  .obj [("sha256", .str i.sha256), ("size", .num i.size)]

/-- Marshalling of the `files` map (keys sorted by Go's encoder). -/
def encodeFiles (m : FileMap) : Json :=
  .obj ((sortFileMap m).map (fun e => (e.1, encodeFileInfo e.2)))

/-- Marshalling of `Manifest`: fields in struct order `files`, `releaseId`
(omitted when empty, per `omitempty`), `buildTime`. -/
def encodeManifest (m : Manifest) : Json :=
  .obj ([("files", encodeFiles m.files)] ++
    (if m.releaseID = "" then [] else [("releaseId", Json.str m.releaseID)]) ++
    [("buildTime", Json.num m.buildTime)])

/-- Field lookup during unmarshalling. -/
def lookupJson (fields : List (String × Json)) (k : String) : Option Json :=
  (fields.find? (fun e => e.1 = k)).map (fun e => e.2)

/-- Unmarshal a string field; a missing field yields Go's zero value `""`. -/
def decodeStrField : Option Json → Option String
  | none => some ""
  | some (.str s) => some s
  | _ => none

/-- Unmarshal an integer field; a missing field yields Go's zero value `0`. -/
def decodeNumField : Option Json → Option Int
  | none => some 0
  | some (.num n) => some n
  | _ => none

/-- Unmarshalling of `FileInfo`. -/
def decodeFileInfo : Json → Option FileInfo
  | .obj fs =>
    match decodeStrField (lookupJson fs "sha256"), decodeNumField (lookupJson fs "size") with
    | some h, some n => some ⟨h, n⟩
    | _, _ => none
  | _ => none

/-- Unmarshalling of the `files` object into the map. -/
def decodeFiles : List (String × Json) → Option FileMap
  | [] => some []
  | (p, j) :: rest =>
    match decodeFileInfo j, decodeFiles rest with
    | some i, some r => some ((p, i) :: r)
    | _, _ => none

/-- Unmarshalling of `Manifest`. -/
def decodeManifest : Json → Option Manifest
  | .obj fs =>
    let filesOpt : Option FileMap :=
      match lookupJson fs "files" with
      | none => some []
      | some .null => some []
      | some (.obj fl) => decodeFiles fl
      | some _ => none
    match filesOpt, decodeStrField (lookupJson fs "releaseId"),
        decodeNumField (lookupJson fs "buildTime") with
    | some files, some rid, some bt => some ⟨files, rid, bt⟩
    | _, _, _ => none
  | _ => none

/-- `WriteManifest` (manifest.go): the written file holds the encoded value. -/
def WriteManifest (m : Manifest) : Json :=
  encodeManifest m

/-- `ReadManifest` (manifest.go): decode the file's JSON value. -/
def ReadManifest (j : Json) : Option Manifest :=
  decodeManifest j

lemma decodeFileInfo_encode (i : FileInfo) :
    decodeFileInfo (encodeFileInfo i) = some i := rfl

lemma decodeFiles_encode (fl : FileMap) :
    decodeFiles (fl.map (fun e => (e.1, encodeFileInfo e.2))) = some fl := by
  induction fl with
  | nil => rfl
  | cons e rest ih =>
    cases e
    simp [decodeFiles, decodeFileInfo_encode, ih]

lemma lookupJson_cons_hit (k : String) (v : Json) (rest : List (String × Json)) :
    lookupJson ((k, v) :: rest) k = some v := by
  simp [lookupJson]

lemma lookupJson_cons_miss (k k' : String) (v : Json) (rest : List (String × Json))
    (h : k' ≠ k) : lookupJson ((k', v) :: rest) k = lookupJson rest k := by
  simp [lookupJson, List.find?, h]

lemma lookupJson_nil (k : String) : lookupJson [] k = none := rfl

/-- C6: For every manifest `M` (with the canonical sorted-unique key list
that models a Go map), writing `M` with `WriteManifest` and reading it back
with `ReadManifest` yields a manifest equal to `M` field for field. -/
theorem manifest_roundtrip (m : Manifest)
    (hsorted : m.files.Pairwise (fun a b => a.1 < b.1)) :
    ReadManifest (WriteManifest m) = some m := by
  have hs : List.Sorted (fun a b : String × FileInfo => a.1 ≤ b.1) m.files :=
    hsorted.imp (fun h => le_of_lt h)
  have hid : sortFileMap m.files = m.files := List.Sorted.insertionSort_eq hs
  unfold ReadManifest WriteManifest encodeManifest
  by_cases hrid : m.releaseID = ""
  · rw [if_pos hrid]
    have hL : ([("files", encodeFiles m.files)] ++ [] ++
        [("buildTime", Json.num m.buildTime)])
        = [("files", encodeFiles m.files), ("buildTime", Json.num m.buildTime)] := by
      simp
    rw [hL]
    have h1 : lookupJson [("files", encodeFiles m.files),
        ("buildTime", Json.num m.buildTime)] "files" = some (encodeFiles m.files) :=
      lookupJson_cons_hit _ _ _
    have h2 : lookupJson [("files", encodeFiles m.files),
        ("buildTime", Json.num m.buildTime)] "releaseId" = none := by
      rw [lookupJson_cons_miss _ _ _ _ (by decide),
        lookupJson_cons_miss _ _ _ _ (by decide), lookupJson_nil]
    have h3 : lookupJson [("files", encodeFiles m.files),
        ("buildTime", Json.num m.buildTime)] "buildTime" = some (Json.num m.buildTime) := by
      rw [lookupJson_cons_miss _ _ _ _ (by decide), lookupJson_cons_hit]
    simp only [decodeManifest, h1, h2, h3]
    rw [encodeFiles, hid]
    simp only [decodeFiles_encode, decodeStrField, decodeNumField]
    rw [← hrid]
  · rw [if_neg hrid]
    have hL : ([("files", encodeFiles m.files)] ++ [("releaseId", Json.str m.releaseID)] ++
        [("buildTime", Json.num m.buildTime)])
        = [("files", encodeFiles m.files), ("releaseId", Json.str m.releaseID),
          ("buildTime", Json.num m.buildTime)] := by
      simp
    rw [hL]
    have h1 : lookupJson [("files", encodeFiles m.files),
        ("releaseId", Json.str m.releaseID),
        ("buildTime", Json.num m.buildTime)] "files" = some (encodeFiles m.files) :=
      lookupJson_cons_hit _ _ _
    have h2 : lookupJson [("files", encodeFiles m.files),
        ("releaseId", Json.str m.releaseID),
        ("buildTime", Json.num m.buildTime)] "releaseId" = some (Json.str m.releaseID) := by
      rw [lookupJson_cons_miss _ _ _ _ (by decide), lookupJson_cons_hit]
    have h3 : lookupJson [("files", encodeFiles m.files),
        ("releaseId", Json.str m.releaseID),
        ("buildTime", Json.num m.buildTime)] "buildTime" = some (Json.num m.buildTime) := by
      rw [lookupJson_cons_miss _ _ _ _ (by decide),
        lookupJson_cons_miss _ _ _ _ (by decide), lookupJson_cons_hit]
    simp only [decodeManifest, h1, h2, h3]
    rw [encodeFiles, hid]
    simp only [decodeFiles_encode, decodeStrField, decodeNumField]

/-- Concrete manifest used to witness the round-trip. -/
def exSortedManifest : Manifest :=
  ⟨[("a.txt", ⟨"h1", 10⟩)], "rel-1", 42⟩

theorem manifest_roundtrip_witness :
    ReadManifest (WriteManifest exSortedManifest) = some exSortedManifest :=
  manifest_roundtrip exSortedManifest (List.pairwise_singleton _ _)

/-!
Manifest generation (`GenerateManifestWithWorkers`, `hashWorker`,
manifest.go).  The worker pool is serialized: the enumerated file list is
processed in order; `hashFile` becomes an oracle `hash`; the buffered-one
error channel with its non-blocking send becomes "first error wins"; failed
files are skipped (`continue`), successes are inserted into the map.
`collectFiles` is modelled as the given enumeration `files`.
-/

/-- The fan-out/fan-in of `hashWorker` over the file queue, serialized:
returns the inserted map entries and the captured (first) error, if any. -/
def hashAll (hash : String → Except String FileInfo) :
    List String → FileMap × Option String
  | [] => ([], none)
  | f :: rest =>
    let r := hashAll hash rest
    match hash f with
    | .error e => (r.1, some e)
    | .ok i => ((f, i) :: r.1, r.2)

/-- `GenerateManifestWithWorkers` (manifest.go): build the map, then drain
the error channel; any captured error discards the whole manifest. -/
def GenerateManifestWithWorkers (hash : String → Except String FileInfo)
    (releaseID : String) (buildTime : Int) (files : List String) :
    Except String Manifest :=
  match (hashAll hash files).2 with
  | some e => .error e
  | none => .ok ⟨(hashAll hash files).1, releaseID, buildTime⟩

lemma hashAll_spec (hash : String → Except String FileInfo) (files : List String) :
    ((hashAll hash files).2 = none ↔ (∀ f ∈ files, ∃ i, hash f = .ok i)) ∧
    (∀ e, (hashAll hash files).2 = some e → ∃ f ∈ files, hash f = .error e) ∧
    ((hashAll hash files).2 = none →
      ((hashAll hash files).1.map (fun e => e.1) = files ∧
        ∀ f i, (f, i) ∈ (hashAll hash files).1 → hash f = .ok i)) := by
  induction files with
  | nil => simp [hashAll]
  | cons f rest ih =>
    rcases ih with ⟨ih1, ih2, ih3⟩
    cases hf : hash f with
    | error e =>
      have hne : ¬(∀ g ∈ f :: rest, ∃ i, hash g = .ok i) := by
        intro hall
        rcases hall f (List.mem_cons_self f rest) with ⟨i, hi⟩
        rw [hf] at hi; exact Except.noConfusion hi
      refine ⟨?_, ?_, ?_⟩
      · constructor
        · intro hnone; simp [hashAll, hf] at hnone
        · intro hall; exact absurd hall hne
      · intro e' he'
        have hee : e = e' := by simp [hashAll, hf] at he'; exact he'
        exact ⟨f, List.mem_cons_self f rest, hee ▸ hf⟩
      · intro hnone
        simp [hashAll, hf] at hnone
    | ok i =>
      refine ⟨?_, ?_, ?_⟩
      · simp only [hashAll, hf]
        rw [ih1]
        constructor
        · intro hall g hg
          rcases List.mem_cons.mp hg with hgf | hgr
          · exact ⟨i, hgf ▸ hf⟩
          · exact hall g hgr
        · intro hall g hg
          exact hall g (List.mem_cons_of_mem f hg)
      · intro e' he'
        simp only [hashAll, hf] at he'
        rcases ih2 e' he' with ⟨g, hg, hge⟩
        exact ⟨g, List.mem_cons_of_mem f hg, hge⟩
      · intro hnone
        simp only [hashAll, hf] at hnone ⊢
        rcases ih3 hnone with ⟨hmap, hentries⟩
        refine ⟨by simp [hmap], ?_⟩
        intro g j hgj
        rcases List.mem_cons.mp hgj with hhead | htail
        · have hg : g = f := congrArg Prod.fst hhead
          have hj : j = i := congrArg Prod.snd hhead
          rw [hg, hj]; exact hf
        · exact hentries g j htail

/-- C7: if any enumerated file fails to hash, `GenerateManifestWithWorkers`
returns an error (one of the failed files' errors) and no manifest; if no
file fails, it returns a manifest with exactly one entry per enumerated
file, each holding that file's hash result. -/
theorem generateManifest_error_policy (hash : String → Except String FileInfo)
    (rid : String) (bt : Int) (files : List String) :
    ((∃ f ∈ files, ∃ e, hash f = .error e) →
      ∃ e, GenerateManifestWithWorkers hash rid bt files = .error e ∧
        ∃ f ∈ files, hash f = .error e) ∧
    ((∀ f ∈ files, ∃ i, hash f = .ok i) →
      ∃ m, GenerateManifestWithWorkers hash rid bt files = .ok m ∧
        m.releaseID = rid ∧ m.files.map (fun e => e.1) = files ∧
        ∀ f i, (f, i) ∈ m.files → hash f = .ok i) := by
  rcases hashAll_spec hash files with ⟨h1, h2, h3⟩
  constructor
  · intro ⟨f, hfmem, e, hfe⟩
    cases herr : (hashAll hash files).2 with
    | none =>
      rcases (h1.mp herr) f hfmem with ⟨i, hi⟩
      rw [hfe] at hi; exact Except.noConfusion hi
    | some e' =>
      refine ⟨e', ?_, h2 e' herr⟩
      unfold GenerateManifestWithWorkers
      rw [herr]
  · intro hall
    have herr : (hashAll hash files).2 = none := h1.mpr hall
    rcases h3 herr with ⟨hmap, hentries⟩
    refine ⟨⟨(hashAll hash files).1, rid, bt⟩, ?_, rfl, hmap, hentries⟩
    unfold GenerateManifestWithWorkers
    rw [herr]

/-- Hash oracle for the witness: one unreadable file. -/
def exHash : String → Except String FileInfo :=
  fun f => if f = "bad.txt" then .error "boom" else .ok ⟨"h1", 1⟩

theorem generateManifest_error_policy_witness :
    ∃ e, GenerateManifestWithWorkers exHash "r1" 0 ["a.txt", "bad.txt"] = .error e ∧
      ∃ f ∈ ["a.txt", "bad.txt"], exHash f = .error e :=
  (generateManifest_error_policy exHash "r1" 0 ["a.txt", "bad.txt"]).1
    ⟨"bad.txt", by simp, "boom", by simp [exHash]⟩

/-!
Deployer filesystem model (local.go, remote.go).

The target tree under `Environment.path` is a list of release directories
(`releases/<id>`, each with a modification time and the set of file names it
contains) plus the resolved target of the `current` symlink.  The remote
deployer's shell scripts are state transformers over the same model.
Activation additionally reports the trace of symlink-level operations it
performs, so that the write-temp-then-rename mechanism is visible.
-/

/-- One directory under `releases/`: its name, its modification time (the
creation-time proxy used by `ListReleases`), and the names of the files it
holds. -/
structure Rel where
  id : String
  mtime : Nat
  files : List String
deriving DecidableEq, Repr

/-- The deployment target: the release directories and the release the
`current` symlink resolves to (`none` when the link is absent/dangling). -/
structure DeployFs where
  releases : List Rel
  current : Option String
deriving DecidableEq, Repr

/-- `Release` from types.go (`Path` is derived from the id). -/
structure Release where
  id : String
  createdAt : Nat
  current : Bool
deriving DecidableEq, Repr

/-- Directory lookup of `releases/<rid>` (`os.Stat` on the release dir). -/
def lookupRel (rid : String) (st : DeployFs) : Option Rel :=
  st.releases.find? (fun r => r.id = rid)

/-- The newest-first comparison of `ListReleases` (`CreatedAt.After`). -/
def relNewer (a b : Release) : Prop :=
  b.createdAt ≤ a.createdAt

instance : DecidableRel relNewer :=
  fun a b => inferInstanceAs (Decidable (b.createdAt ≤ a.createdAt))

instance : IsTotal Release relNewer :=
  ⟨fun a b => (Nat.le_total a.createdAt b.createdAt).symm⟩

instance : IsTrans Release relNewer :=
  ⟨fun _ _ _ h1 h2 => Nat.le_trans h2 h1⟩

/-- The `Release` value `ListReleases` builds for one directory entry. -/
def toRelease (st : DeployFs) (r : Rel) : Release :=
  ⟨r.id, r.mtime, decide (st.current = some r.id)⟩

/-- `sort.Slice(..., CreatedAt.After)` — newest first. -/
def sortRelsDesc (l : List Release) : List Release :=
  l.insertionSort relNewer

/-- `ListReleases` on an existing releases directory (both backends: local
`os.ReadDir` + sort, and the remote shell loop `name mtime is-current` +
sort). -/
def listReleasesOf (st : DeployFs) : List Release :=
  sortRelsDesc (st.releases.map (toRelease st))

/-- Failure modes of `os.ReadDir` as distinguished by `ListReleases`. -/
inductive DirErr where
  | notExist
  | other (msg : String)
deriving DecidableEq, Repr

/-- `LocalDeployer.ListReleases` (local.go) with the `os.ReadDir` outcome
explicit: `IsNotExist` yields an empty list and no error; any other read
error is returned; otherwise entries are mapped and sorted newest-first. -/
def ListReleasesLocal (readDirRes : Except DirErr (List Rel)) (cur : Option String) :
    Except DirErr (List Release) :=
  match readDirRes with
  | .error .notExist => .ok []
  | .error e => .error e
  | .ok entries =>
    .ok (sortRelsDesc (entries.map (fun r => ⟨r.id, r.mtime, decide (cur = some r.id)⟩)))

/-- The required marker files of `Activate` (local.go / remote.go, §6). -/
def requiredFiles : List String :=
  ["healthz.json", "index.html", "sw.js"]

/-- `os.Stat(releaseDir/f)` succeeds: the release directory exists and holds
`f`. -/
def markerPresent (st : DeployFs) (rid f : String) : Bool :=
  match lookupRel rid st with
  | some r => r.files.contains f
  | none => false

/-- Symlink-level filesystem operations performed by activation. -/
inductive FsOp where
  | removeAll (rid : String)
  | removeLink (p : String)
  | symlink (target link : String)
  | rename (src dst : String)
deriving DecidableEq, Repr

/-- Name of the live pointer. -/
def currentName : String := "current"

/-- Temporary name the new symlink is written under. -/
def tmpLinkName : String := "current.new"

/-- `LocalDeployer.Activate` (local.go): validate the three markers in
order; on the first missing one, `os.RemoveAll(releaseDir)` and error; on
success, `os.Remove(tmp)`, `os.Symlink(rel, tmp)`, `os.Rename(tmp, current)`. -/
def localActivate (rid : String) (st : DeployFs) :
    DeployFs × Except String Unit × List FsOp :=
  match requiredFiles.find? (fun f => !markerPresent st rid f) with
  | some f =>
    ({ st with releases := st.releases.filter (fun r => r.id ≠ rid) },
      .error ("validation failed: " ++ f ++ " missing"),
      [.removeAll rid])
  | none =>
    ({ st with current := some rid }, .ok (),
      [.removeLink tmpLinkName, .symlink rid tmpLinkName, .rename tmpLinkName currentName])

/-- `RemoteDeployer.Activate` (remote.go): the `set -e` script validates the
same three markers, `rm -rf` on failure, else `ln -sfn` to the temp name and
`mv -Tf` over `current`. -/
def remoteActivate (rid : String) (st : DeployFs) :
    DeployFs × Except String Unit × List FsOp :=
  match requiredFiles.find? (fun f => !markerPresent st rid f) with
  | some f =>
    ({ st with releases := st.releases.filter (fun r => r.id ≠ rid) },
      .error ("ERROR: " ++ f ++ " missing"),
      [.removeAll rid])
  | none =>
    ({ st with current := some rid }, .ok (),
      [.symlink rid tmpLinkName, .rename tmpLinkName currentName])

lemma lookupRel_filter_out (rid : String) (l : List Rel) :
    (l.filter (fun r => r.id ≠ rid)).find? (fun r => r.id = rid) = none := by
  apply List.find?_eq_none.mpr
  intro x hx
  have hne := (List.mem_filter.mp hx).2
  simp at hne ⊢
  exact hne

lemma find?_filter_ne (c rid : String) (hne : c ≠ rid) (l : List Rel) :
    (l.filter (fun r => r.id ≠ rid)).find? (fun r => r.id = c) =
      l.find? (fun r => r.id = c) := by
  induction l with
  | nil => rfl
  | cons r t ih =>
    by_cases h1 : r.id = rid
    · have h2 : ¬(r.id = c) := fun hc => hne (hc.symm.trans h1)
      rw [List.filter_cons_of_neg (by simp [h1]),
        List.find?_cons_of_neg _ (by simp [h2])]
      exact ih
    · rw [List.filter_cons_of_pos (by simp [h1])]
      by_cases h2 : r.id = c
      · rw [List.find?_cons_of_pos _ (by simp [h2]),
          List.find?_cons_of_pos _ (by simp [h2])]
      · rw [List.find?_cons_of_neg _ (by simp [h2]),
          List.find?_cons_of_neg _ (by simp [h2])]
        exact ih

/-- C1: for both deployer backends, if any required marker file is missing
from the release, `Activate(releaseID)` errors, deletes the release
directory, and leaves `current` untouched (any distinct pre-activation
release it resolves to is preserved, and the only operation performed is the
directory removal); and the live pointer changes only when validation
passed, in which case it is set via a symlink written under the temporary
name and renamed over `current`. -/
theorem activate_atomic (st : DeployFs) (rid : String) :
    ((∃ f ∈ requiredFiles, markerPresent st rid f = false) →
      ((localActivate rid st).2.1.isOk = false ∧
        lookupRel rid (localActivate rid st).1 = none ∧
        (localActivate rid st).1.current = st.current ∧
        (∀ c, c ≠ rid → lookupRel c (localActivate rid st).1 = lookupRel c st) ∧
        (localActivate rid st).2.2 = [.removeAll rid]) ∧
      ((remoteActivate rid st).2.1.isOk = false ∧
        lookupRel rid (remoteActivate rid st).1 = none ∧
        (remoteActivate rid st).1.current = st.current ∧
        (∀ c, c ≠ rid → lookupRel c (remoteActivate rid st).1 = lookupRel c st) ∧
        (remoteActivate rid st).2.2 = [.removeAll rid])) ∧
    ((localActivate rid st).1.current ≠ st.current →
      ((∀ f ∈ requiredFiles, markerPresent st rid f = true) ∧
        (localActivate rid st).1.current = some rid ∧
        (localActivate rid st).2.2 =
          [.removeLink tmpLinkName, .symlink rid tmpLinkName,
            .rename tmpLinkName currentName])) ∧
    ((remoteActivate rid st).1.current ≠ st.current →
      ((∀ f ∈ requiredFiles, markerPresent st rid f = true) ∧
        (remoteActivate rid st).1.current = some rid ∧
        (remoteActivate rid st).2.2 =
          [.symlink rid tmpLinkName, .rename tmpLinkName currentName])) := by
  cases hfind : requiredFiles.find? (fun f => !markerPresent st rid f) with
  | none =>
    have hall : ∀ f ∈ requiredFiles, markerPresent st rid f = true := by
      intro f hf
      have := List.find?_eq_none.mp hfind f hf
      simpa using this
    refine ⟨?_, ?_, ?_⟩
    · intro ⟨f, hf, hmiss⟩
      rw [hall f hf] at hmiss
      exact Bool.noConfusion hmiss
    · intro _
      exact ⟨hall, by simp [localActivate, hfind], by simp [localActivate, hfind]⟩
    · intro _
      exact ⟨hall, by simp [remoteActivate, hfind], by simp [remoteActivate, hfind]⟩
  | some f =>
    refine ⟨?_, ?_, ?_⟩
    · intro _
      refine ⟨⟨by simp only [localActivate, hfind]; rfl, ?_,
          by simp only [localActivate, hfind], ?_,
          by simp only [localActivate, hfind]⟩,
        ⟨by simp only [remoteActivate, hfind]; rfl, ?_,
          by simp only [remoteActivate, hfind], ?_,
          by simp only [remoteActivate, hfind]⟩⟩
      · simp only [localActivate, hfind]
        exact lookupRel_filter_out rid st.releases
      · intro c hc
        simp only [localActivate, hfind, lookupRel]
        exact find?_filter_ne c rid hc st.releases
      · simp only [remoteActivate, hfind]
        exact lookupRel_filter_out rid st.releases
      · intro c hc
        simp only [remoteActivate, hfind, lookupRel]
        exact find?_filter_ne c rid hc st.releases
    · intro hcur
      exact absurd (by simp [localActivate, hfind]) hcur
    · intro hcur
      exact absurd (by simp [remoteActivate, hfind]) hcur

/-- State used to witness activation failure: release `r1` lacks `sw.js`,
the live pointer rests on `r0`. -/
def exActivateSt : DeployFs :=
  ⟨[⟨"r0", 2, ["healthz.json", "index.html", "sw.js"]⟩,
    ⟨"r1", 1, ["healthz.json", "index.html"]⟩], some "r0"⟩

theorem activate_atomic_witness :
    (localActivate "r1" exActivateSt).2.1.isOk = false ∧
    lookupRel "r1" (localActivate "r1" exActivateSt).1 = none ∧
    (localActivate "r1" exActivateSt).1.current = some "r0" :=
  have h := (activate_atomic exActivateSt "r1").1 ⟨"sw.js", by decide, by decide⟩
  ⟨h.1.1, h.1.2.1, h.1.2.2.1⟩

/-- C9: `LocalDeployer.ListReleases` treats a missing releases directory
(first deploy) as an empty list with no error, while any other read failure
of the directory is returned as an error. -/
theorem listReleases_first_deploy (res : Except DirErr (List Rel)) (cur : Option String) :
    (res = .error .notExist → ListReleasesLocal res cur = .ok []) ∧
    (∀ msg, res = .error (.other msg) → ListReleasesLocal res cur = .error (.other msg)) := by
  constructor
  · intro h; rw [h]; rfl
  · intro msg h; rw [h]; rfl

theorem listReleases_first_deploy_witness :
    ListReleasesLocal (.error .notExist) none = .ok [] :=
  (listReleases_first_deploy (.error .notExist) none).1 rfl

/-- `LocalDeployer.Cleanup` (local.go): list newest-first; if at most
`keepN` exist, do nothing; else `os.RemoveAll` every release past the first
`keepN`, skipping the current one. -/
def localCleanup (keepN : Nat) (st : DeployFs) : DeployFs × Except String Unit :=
  if (listReleasesOf st).length ≤ keepN then (st, .ok ())
  else
    let doomed :=
      (((listReleasesOf st).drop keepN).filter (fun r => !r.current)).map (fun r => r.id)
    ({ st with releases := st.releases.filter (fun r => !decide (r.id ∈ doomed)) }, .ok ())

/-- `RemoteDeployer.Cleanup` (remote.go): the shell pipeline
`ls -1t | tail -n +(keepN+1) | xargs -r rm -rf` — delete everything past the
newest `keepN`, with no regard for `current`. -/
def remoteCleanup (keepN : Nat) (st : DeployFs) : DeployFs × Except String Unit :=
  let doomed := ((listReleasesOf st).drop keepN).map (fun r => r.id)
  ({ st with releases := st.releases.filter (fun r => !decide (r.id ∈ doomed)) }, .ok ())

/-- The retention example of spec §8: five releases, `R5` newest and
current. -/
def exCleanupSt : DeployFs :=
  ⟨[⟨"R5", 5, []⟩, ⟨"R4", 4, []⟩, ⟨"R3", 3, []⟩, ⟨"R2", 2, []⟩, ⟨"R1", 1, []⟩],
    some "R5"⟩

/-- Three releases with `current` resolved to the oldest (post-rollback
state). -/
def cexCleanupSt : DeployFs :=
  ⟨[⟨"R3", 3, []⟩, ⟨"R2", 2, []⟩, ⟨"R1", 1, []⟩], some "R1"⟩

/-- C3 counterexample: the remote deployer's `Cleanup` deletes the release
the resolved `current` symlink points at when it falls outside the newest
`keepN` — here `keepN = 1` with current `R1` (oldest of three): `R1` is
removed, refuting the claim's "never deletes the current release" for the
remote backend. -/
theorem remoteCleanup_deletes_current :
    cexCleanupSt.current = some "R1" ∧
    lookupRel "R1" cexCleanupSt ≠ none ∧
    (remoteCleanup 1 cexCleanupSt).1.releases.map (fun r => r.id) = ["R3"] ∧
    lookupRel "R1" (remoteCleanup 1 cexCleanupSt).1 = none := by
  decide

lemma listReleasesOf_perm (st : DeployFs) :
    (listReleasesOf st).Perm (st.releases.map (toRelease st)) :=
  List.perm_insertionSort relNewer _

lemma listReleasesOf_sorted (st : DeployFs) :
    List.Sorted relNewer (listReleasesOf st) :=
  List.sorted_insertionSort relNewer _

lemma listReleasesOf_ids_nodup (st : DeployFs)
    (hnd : (st.releases.map (fun r => r.id)).Nodup) :
    ((listReleasesOf st).map (fun x => x.id)).Nodup := by
  have hperm := (listReleasesOf_perm st).map (fun x : Release => x.id)
  have hmm : (st.releases.map (toRelease st)).map (fun x : Release => x.id) =
      st.releases.map (fun r => r.id) := by
    rw [List.map_map]; rfl
  exact hperm.nodup_iff.mpr (hmm ▸ hnd)

lemma listReleasesOf_nodup (st : DeployFs)
    (hnd : (st.releases.map (fun r => r.id)).Nodup) :
    (listReleasesOf st).Nodup :=
  (listReleasesOf_ids_nodup st hnd).of_map

lemma mem_listReleasesOf (st : DeployFs) (r : Rel) (hr : r ∈ st.releases) :
    toRelease st r ∈ listReleasesOf st :=
  (listReleasesOf_perm st).mem_iff.mpr (List.mem_map_of_mem _ hr)

lemma id_mem_seg_iff (st : DeployFs)
    (hnd : (st.releases.map (fun r => r.id)).Nodup)
    (seg : List Release) (hsub : seg ⊆ listReleasesOf st)
    (pred : Release → Bool) (r : Rel) (hr : r ∈ st.releases) :
    r.id ∈ (seg.filter pred).map (fun x => x.id) ↔
      (toRelease st r ∈ seg ∧ pred (toRelease st r) = true) := by
  have hR : toRelease st r ∈ listReleasesOf st := mem_listReleasesOf st r hr
  have hids := listReleasesOf_ids_nodup st hnd
  constructor
  · intro h
    rcases List.mem_map.mp h with ⟨x, hxf, hxid⟩
    rcases List.mem_filter.mp hxf with ⟨hxseg, hxpred⟩
    have hxls : x ∈ listReleasesOf st := hsub hxseg
    have hxR : x = toRelease st r :=
      List.inj_on_of_nodup_map hids hxls hR (by simpa using hxid)
    exact ⟨hxR ▸ hxseg, hxR ▸ hxpred⟩
  · intro ⟨hseg, hpred⟩
    exact List.mem_map.mpr
      ⟨toRelease st r, List.mem_filter.mpr ⟨hseg, hpred⟩, rfl⟩

lemma take_iff_not_drop (st : DeployFs)
    (hnd : (st.releases.map (fun r => r.id)).Nodup) (keepN : Nat)
    (x : Release) (hx : x ∈ listReleasesOf st) :
    x ∈ (listReleasesOf st).take keepN ↔ x ∉ (listReleasesOf st).drop keepN := by
  have hnodup : ((listReleasesOf st).take keepN ++ (listReleasesOf st).drop keepN).Nodup := by
    rw [List.take_append_drop]
    exact listReleasesOf_nodup st hnd
  have hdisj := List.disjoint_of_nodup_append hnodup
  constructor
  · intro ht hd
    exact hdisj ht hd
  · intro hd
    have hx' : x ∈ (listReleasesOf st).take keepN ++ (listReleasesOf st).drop keepN := by
      rw [List.take_append_drop]; exact hx
    rcases List.mem_append.mp hx' with h | h
    · exact h
    · exact absurd h hd

lemma localCleanup_mem (st : DeployFs) (keepN : Nat)
    (hnd : (st.releases.map (fun r => r.id)).Nodup)
    (r : Rel) (hr : r ∈ st.releases) :
    r ∈ (localCleanup keepN st).1.releases ↔
      (toRelease st r ∈ (listReleasesOf st).take keepN ∨ st.current = some r.id) := by
  have hR : toRelease st r ∈ listReleasesOf st := mem_listReleasesOf st r hr
  unfold localCleanup
  by_cases hlen : (listReleasesOf st).length ≤ keepN
  · rw [if_pos hlen]
    constructor
    · intro _
      exact Or.inl (by rw [List.take_of_length_le hlen]; exact hR)
    · intro _
      exact hr
  · rw [if_neg hlen]
    simp only [List.mem_filter, Bool.not_eq_eq_eq_not, Bool.not_true, decide_eq_false_iff_not]
    have hseg := id_mem_seg_iff st hnd ((listReleasesOf st).drop keepN)
      (List.drop_subset _ _) (fun x => !x.current) r hr
    constructor
    · intro ⟨_, hnid⟩
      rw [hseg] at hnid
      by_cases hcur : st.current = some r.id
      · exact Or.inr hcur
      · left
        rw [take_iff_not_drop st hnd keepN _ hR]
        intro hdrop
        exact hnid ⟨hdrop, by simp [toRelease, hcur]⟩
    · intro h
      refine ⟨hr, ?_⟩
      rw [hseg]
      rcases h with htake | hcur
      · intro ⟨hdrop, _⟩
        exact ((take_iff_not_drop st hnd keepN _ hR).mp htake) hdrop
      · intro ⟨_, hpred⟩
        simp [toRelease, hcur] at hpred

lemma remoteCleanup_mem (st : DeployFs) (keepN : Nat)
    (hnd : (st.releases.map (fun r => r.id)).Nodup)
    (r : Rel) (hr : r ∈ st.releases) :
    r ∈ (remoteCleanup keepN st).1.releases ↔
      toRelease st r ∈ (listReleasesOf st).take keepN := by
  have hR : toRelease st r ∈ listReleasesOf st := mem_listReleasesOf st r hr
  unfold remoteCleanup
  simp only [List.mem_filter, Bool.not_eq_eq_eq_not, Bool.not_true, decide_eq_false_iff_not]
  have hseg := id_mem_seg_iff st hnd ((listReleasesOf st).drop keepN)
    (List.drop_subset _ _) (fun _ => true) r hr
  rw [List.filter_true] at hseg
  constructor
  · intro ⟨_, hnid⟩
    rw [hseg] at hnid
    rw [take_iff_not_drop st hnd keepN _ hR]
    intro hdrop
    exact hnid ⟨hdrop, rfl⟩
  · intro htake
    refine ⟨hr, ?_⟩
    rw [hseg]
    intro ⟨hdrop, _⟩
    exact ((take_iff_not_drop st hnd keepN _ hR).mp htake) hdrop

/-- C3 (amended): `Cleanup(keepN)` orders releases newest-first by creation
time and deletes exactly the releases outside the newest `keepN`, except
that only the LOCAL deployer additionally spares the release the resolved
`current` symlink points at; the remote deployer deletes purely by recency
and can delete the current release (see the counterexample).  With
`keepN = 2` and releases `[R5(current), R4, R3, R2, R1]` newest first, both
backends leave exactly `{R5, R4}`. -/
theorem cleanup_retention (st : DeployFs) (keepN : Nat)
    (hnd : (st.releases.map (fun r => r.id)).Nodup) :
    List.Sorted relNewer (listReleasesOf st) ∧
    (listReleasesOf st).Perm (st.releases.map (toRelease st)) ∧
    (∀ r ∈ st.releases, (r ∈ (localCleanup keepN st).1.releases ↔
      (toRelease st r ∈ (listReleasesOf st).take keepN ∨ st.current = some r.id))) ∧
    (∀ r ∈ st.releases, (r ∈ (remoteCleanup keepN st).1.releases ↔
      toRelease st r ∈ (listReleasesOf st).take keepN)) ∧
    (∀ r, r ∈ (localCleanup keepN st).1.releases → r ∈ st.releases) ∧
    (∀ r, r ∈ (remoteCleanup keepN st).1.releases → r ∈ st.releases) ∧
    (localCleanup 2 exCleanupSt).1.releases.map (fun r => r.id) = ["R5", "R4"] ∧
    (remoteCleanup 2 exCleanupSt).1.releases.map (fun r => r.id) = ["R5", "R4"] := by
  refine ⟨listReleasesOf_sorted st, listReleasesOf_perm st,
    fun r hr => localCleanup_mem st keepN hnd r hr,
    fun r hr => remoteCleanup_mem st keepN hnd r hr, ?_, ?_, by decide, by decide⟩
  · intro r hmem
    unfold localCleanup at hmem
    by_cases hlen : (listReleasesOf st).length ≤ keepN
    · rw [if_pos hlen] at hmem; exact hmem
    · rw [if_neg hlen] at hmem
      exact (List.mem_filter.mp hmem).1
  · intro r hmem
    exact (List.mem_filter.mp hmem).1

theorem cleanup_retention_witness :
    (localCleanup 2 exCleanupSt).1.releases.map (fun r => r.id) = ["R5", "R4"] ∧
    (remoteCleanup 2 exCleanupSt).1.releases.map (fun r => r.id) = ["R5", "R4"] :=
  have h := cleanup_retention exCleanupSt 2 (by decide)
  ⟨h.2.2.2.2.2.2.1, h.2.2.2.2.2.2.2⟩

/-- `LocalDeployer.Rollback` (local.go): empty id picks the first
non-current listed release (error when none); then `os.Stat` on the release
directory (error when missing); then it delegates to `Activate` — including
Activate's marker validation and its failure cleanup. -/
def localRollback (rid : String) (st : DeployFs) : DeployFs × Except String Unit :=
  match (if rid = "" then
      match (listReleasesOf st).find? (fun r => !r.current) with
      | some r => some r.id
      | none => none
    else some rid) with
  | none => (st, .error "no previous release found")
  | some rid2 =>
    match lookupRel rid2 st with
    | none => (st, .error ("release " ++ rid2 ++ " not found"))
    | some _ => ((localActivate rid2 st).1, (localActivate rid2 st).2.1)

/-- `RemoteDeployer.Rollback` (remote.go): same selection of the target id,
then a script that only checks the release directory exists and performs
the `ln -sfn` + `mv -Tf` swap — no marker validation. -/
def remoteRollback (rid : String) (st : DeployFs) : DeployFs × Except String Unit :=
  match (if rid = "" then
      match (listReleasesOf st).find? (fun r => !r.current) with
      | some r => some r.id
      | none => none
    else some rid) with
  | none => (st, .error "no previous release found")
  | some rid2 =>
    match lookupRel rid2 st with
    | none => (st, .error ("release " ++ rid2 ++ " not found"))
    | some _ => ({ st with current := some rid2 }, .ok ())

/-- State for the C4 counterexample: rollback target `s1` exists but lacks
`sw.js`; `s0` is current. -/
def cexRollbackSt : DeployFs :=
  ⟨[⟨"s0", 2, ["healthz.json", "index.html", "sw.js"]⟩,
    ⟨"s1", 1, ["healthz.json", "index.html"]⟩], some "s0"⟩

/-- C4 counterexample: the LOCAL deployer's `Rollback` delegates to
`Activate`, so it re-runs marker validation and deletes the target release
directory when a marker is missing — refuting "does not re-run marker-file
validation, and it leaves the target release directory in place" for the
local backend. -/
theorem localRollback_revalidates :
    lookupRel "s1" cexRollbackSt ≠ none ∧
    (localRollback "s1" cexRollbackSt).2.isOk = false ∧
    lookupRel "s1" (localRollback "s1" cexRollbackSt).1 = none := by
  decide

/-- C4 (amended): for a non-empty `releaseID`, both backends fail without
touching anything when the release directory is missing; when it exists,
the REMOTE deployer performs the symlink swap without re-running marker
validation and leaves the target in place, while the LOCAL deployer
delegates to `Activate`: with all markers present it swaps successfully,
but with a marker missing it fails and deletes the target release
directory (see the counterexample). -/
theorem rollback_behavior (st : DeployFs) (rid : String) (hrid : rid ≠ "") :
    (lookupRel rid st = none →
      localRollback rid st = (st, .error ("release " ++ rid ++ " not found")) ∧
      remoteRollback rid st = (st, .error ("release " ++ rid ++ " not found"))) ∧
    (lookupRel rid st ≠ none →
      remoteRollback rid st = ({ st with current := some rid }, .ok ()) ∧
      (localRollback rid st).1 = (localActivate rid st).1 ∧
      (localRollback rid st).2 = (localActivate rid st).2.1 ∧
      ((∀ f ∈ requiredFiles, markerPresent st rid f = true) →
        localRollback rid st = ({ st with current := some rid }, .ok ())) ∧
      ((∃ f ∈ requiredFiles, markerPresent st rid f = false) →
        ((localRollback rid st).2.isOk = false ∧
          lookupRel rid (localRollback rid st).1 = none))) := by
  cases hlook : lookupRel rid st with
  | none =>
    refine ⟨fun _ => ?_, fun hne => absurd rfl hne⟩
    constructor
    · simp [localRollback, if_neg hrid, hlook]
    · simp [remoteRollback, if_neg hrid, hlook]
  | some rel =>
    refine ⟨fun hco => Option.noConfusion hco, fun _ => ?_⟩
    refine ⟨by simp [remoteRollback, if_neg hrid, hlook],
      by simp [localRollback, if_neg hrid, hlook],
      by simp [localRollback, if_neg hrid, hlook], ?_, ?_⟩
    · intro hall
      have hfind : requiredFiles.find? (fun f => !markerPresent st rid f) = none :=
        List.find?_eq_none.mpr (fun f hf => by simp [hall f hf])
      simp [localRollback, if_neg hrid, hlook, localActivate, hfind]
    · intro ⟨f, hf, hmiss⟩
      have hex : ∃ x ∈ requiredFiles, (!markerPresent st rid x) = true :=
        ⟨f, hf, by simp [hmiss]⟩
      have hiss := List.find?_isSome.mpr hex
      cases hfind : requiredFiles.find? (fun x => !markerPresent st rid x) with
      | none => rw [hfind] at hiss; exact Bool.noConfusion hiss
      | some f0 =>
        constructor
        · simp only [localRollback, if_neg hrid, hlook, localActivate, hfind]
          rfl
        · simp only [localRollback, if_neg hrid, hlook, localActivate, hfind]
          exact lookupRel_filter_out rid st.releases

/-- State for the C4 witness: a fully validated rollback target `s1`. -/
def exRollbackSt : DeployFs :=
  ⟨[⟨"s0", 2, ["healthz.json", "index.html", "sw.js"]⟩,
    ⟨"s1", 1, ["healthz.json", "index.html", "sw.js"]⟩], some "s0"⟩

theorem rollback_behavior_witness :
    remoteRollback "s1" exRollbackSt = ({ exRollbackSt with current := some "s1" }, .ok ()) ∧
    localRollback "s1" exRollbackSt = ({ exRollbackSt with current := some "s1" }, .ok ()) :=
  have h := (rollback_behavior exRollbackSt "s1" (by decide)).2 (by decide)
  ⟨h.1, h.2.2.2.1 (by decide)⟩

/-!
Upload model (local.go `copyFile`/`UploadDelta`, remote.go `UploadDelta`).

Hardlinks matter here, so the filesystem is modelled with an explicit
path-to-inode indirection: `CreateRelease`'s `cp -al` clone makes two paths
share one inode.  Writing through the inode (truncate-in-place) changes
every path that shares it; unlink-then-create gives the path a fresh inode
and leaves the shared one untouched.
-/

/-- A filesystem with hardlinks: paths name inodes, inodes hold content. -/
structure InodeFs where
  paths : List (String × Nat)
  inodes : List (Nat × String)
  nextIno : Nat
deriving DecidableEq, Repr

/-- The inode a path names. -/
def lookupPath (fs : InodeFs) (p : String) : Option Nat :=
  (fs.paths.find? (fun e => e.1 = p)).map (fun e => e.2)

/-- The content of an inode. -/
def lookupInode (fs : InodeFs) (ino : Nat) : Option String :=
  (fs.inodes.find? (fun e => e.1 = ino)).map (fun e => e.2)

/-- Read a file through its path. -/
def fsRead (fs : InodeFs) (p : String) : Option String :=
  match lookupPath fs p with
  | some ino => lookupInode fs ino
  | none => none

/-- Overwrite the content stored in an inode (what `O_TRUNC` + write does). -/
def setInode (inodes : List (Nat × String)) (ino : Nat) (content : String) :
    List (Nat × String) :=
  inodes.map (fun e => if e.1 = ino then (ino, content) else e)

/-- `copyFile` (local.go): `os.OpenFile(dst, O_WRONLY|O_CREATE|O_TRUNC, mode)`
— when `dst` exists, this truncates and rewrites IN PLACE through the
path's existing inode (hardlinks are not broken); only a missing `dst` gets
a fresh inode. -/
def copyFile (content : String) (dst : String) (fs : InodeFs) : InodeFs :=
  match lookupPath fs dst with
  | some ino => { fs with inodes := setInode fs.inodes ino content }
  | none =>
    { fs with
      paths := fs.paths ++ [(dst, fs.nextIno)]
      inodes := fs.inodes ++ [(fs.nextIno, content)]
      nextIno := fs.nextIno + 1 }

/-- Path of a file inside a release directory. -/
def releasePath (rid file : String) : String :=
  "releases/" ++ rid ++ "/" ++ file

/-- `LocalDeployer.UploadDelta` (local.go): copy each listed file from the
build tree into the release directory via `copyFile`; a missing source
(`os.Open` failure) aborts with an error.  Directories are implicit in the
path-keyed model, so `os.MkdirAll` has no separate effect. -/
def localUploadDelta (build : String → Option String) (rid : String)
    (files : List String) (fs : InodeFs) : InodeFs × Except String Unit :=
  match files with
  | [] => (fs, .ok ())
  | f :: rest =>
    match build f with
    | none => (fs, .error ("copy " ++ f ++ ": open failed"))
    | some content =>
      localUploadDelta build rid rest (copyFile content (releasePath rid f) fs)

/-- Observable remote-side actions of an upload. -/
inductive RemoteEv where
  | startSsh (script : String)
  | tarEntry (path : String)
deriving DecidableEq, Repr

/-- One file extracted by the remote `xz -d | tar -xf -` pipeline: GNU tar's
default replace behavior UNLINKS an existing entry and creates a fresh
file, breaking any hardlink — the old inode keeps its content. -/
def tarExtractFile (content : String) (dst : String) (fs : InodeFs) : InodeFs :=
  { fs with
    paths := fs.paths.filter (fun e => e.1 ≠ dst) ++ [(dst, fs.nextIno)]
    inodes := fs.inodes ++ [(fs.nextIno, content)]
    nextIno := fs.nextIno + 1 }

/-- The streamed per-file extraction of `RemoteDeployer.UploadDelta`;
a locally unreadable file fails fast (files already streamed stay
extracted). -/
def remoteUploadFiles (build : String → Option String) (rid : String)
    (files : List String) (fs : InodeFs) :
    InodeFs × Except String Unit × List RemoteEv :=
  match files with
  | [] => (fs, .ok (), [])
  | f :: rest =>
    match build f with
    | none => (fs, .error ("add " ++ f ++ " to tar: open failed"), [])
    | some content =>
      let r := remoteUploadFiles build rid rest
        (tarExtractFile content (releasePath rid f) fs)
      (r.1, r.2.1, .tarEntry f :: r.2.2)

/-- `RemoteDeployer.UploadDelta` (remote.go): an empty file list returns
immediately — no SSH process is started and nothing is transferred;
otherwise one streamed SSH session extracts every listed file. -/
def remoteUploadDelta (build : String → Option String) (rid : String)
    (files : List String) (fs : InodeFs) :
    InodeFs × Except String Unit × List RemoteEv :=
  match files with
  | [] => (fs, .ok (), [])
  | f :: rest =>
    let r := remoteUploadFiles build rid (f :: rest) fs
    (r.1, r.2.1,
      .startSsh ("cd releases/" ++ rid ++ " && xz -d | tar -xf -") :: r.2.2)

/-- The C2 failing input: release `r2` was hardlink-cloned from `r1`
(`CreateRelease`), so `releases/r1/a.txt` and `releases/r2/a.txt` share
inode 0 holding `old`; the build provides a new `a.txt`. -/
def c2Fs : InodeFs :=
  ⟨[("releases/r1/a.txt", 0), ("releases/r2/a.txt", 0)], [(0, "old")], 1⟩

/-- Build tree for the C2 failing input. -/
def c2Build : String → Option String :=
  fun f => if f = "a.txt" then some "new" else none

/-- C2 evaluation at the failing input: the local `UploadDelta` succeeds but
writes through the shared inode (`copyFile` opens with `O_TRUNC`), so the
PREVIOUS release's `a.txt` silently changes from `old` to `new` —
contradicting the spec's remove-then-create requirement; the remote tar
extraction (unlink-first) preserves the previous release. -/
theorem localUploadDelta_truncates_shared_inode :
    fsRead c2Fs "releases/r1/a.txt" = some "old" ∧
    (localUploadDelta c2Build "r2" ["a.txt"] c2Fs).2.isOk = true ∧
    fsRead (localUploadDelta c2Build "r2" ["a.txt"] c2Fs).1 "releases/r2/a.txt"
      = some "new" ∧
    fsRead (localUploadDelta c2Build "r2" ["a.txt"] c2Fs).1 "releases/r1/a.txt"
      = some "new" ∧
    fsRead (remoteUploadDelta c2Build "r2" ["a.txt"] c2Fs).1 "releases/r2/a.txt"
      = some "new" ∧
    fsRead (remoteUploadDelta c2Build "r2" ["a.txt"] c2Fs).1 "releases/r1/a.txt"
      = some "old" := by
  decide

/-- C10: `UploadDelta` with an empty file list succeeds and performs no
mutation at all — the local deployer leaves the filesystem untouched, the
remote deployer starts no SSH process and produces no events. -/
theorem uploadDelta_empty_noop (build : String → Option String) (rid : String)
    (fs : InodeFs) :
    localUploadDelta build rid [] fs = (fs, .ok ()) ∧
    remoteUploadDelta build rid [] fs = (fs, .ok (), []) :=
  ⟨rfl, rfl⟩

/-!
Deploy orchestrator (`Deploy`, deploy.go): the sequence of effects on the
success path of each step, with the delta outcome abstracted.
-/

/-- `Options` from types.go. -/
structure Options where
  releaseID : String
  dryRun : Bool
  full : Bool
  noBuild : Bool
deriving DecidableEq, Repr

/-- Build/filesystem effects `Deploy` can perform. -/
inductive DeployEffect where
  | buildHugo
  | writeLocalManifest
  | fetchManifest
  | createRelease
  | uploadFull
  | uploadDelta
  | activate
  | cleanup
  | healthCheck
deriving DecidableEq, Repr

/-- The effect trace of `Deploy` (deploy.go): `buildAndGenerateManifest`
runs the Hugo build (unless `noBuild`) and then ALWAYS writes
`public/build-manifest.json`, before the remote manifest is fetched and the
delta computed; only then is `opts.DryRun` checked, returning before
`executeDeployment`.  `remoteEmpty` abstracts "the fetched remote manifest
has no files" and `changedNonempty` abstracts "the delta's changed list is
non-empty" (the upload choice of `uploadFiles`). -/
def deployEffects (opts : Options) (remoteEmpty changedNonempty : Bool) :
    List DeployEffect :=
  (if opts.noBuild then [] else [.buildHugo]) ++
  [.writeLocalManifest, .fetchManifest] ++
  (if opts.dryRun then [] else
    [.createRelease] ++
    (if opts.full || remoteEmpty then [.uploadFull]
      else if changedNonempty then [.uploadDelta] else []) ++
    [.activate, .cleanup, .healthCheck])

/-- C8 counterexample: even with `DryRun` set, `Deploy` writes the local
build manifest (`public/build-manifest.json`) before the dry-run stop —
refuting "no file is written locally or remotely". -/
theorem dryRun_writes_local_manifest :
    DeployEffect.writeLocalManifest ∈ deployEffects ⟨"", true, false, false⟩ false true := by
  decide

/-- C8 (amended): with `DryRun` set, `Deploy` stops after computing the
delta and invokes no deployer mutation — no `CreateRelease`, `UploadFull`,
`UploadDelta`, `Activate` or `Cleanup` — so nothing on the target is
touched; however the local Hugo build (unless `noBuild`) and the local
manifest write to `public/build-manifest.json` still happen before the
dry-run stop. -/
theorem deploy_dryRun_no_deployer_mutation (opts : Options)
    (remoteEmpty changedNonempty : Bool) (h : opts.dryRun = true) :
    DeployEffect.createRelease ∉ deployEffects opts remoteEmpty changedNonempty ∧
    DeployEffect.uploadFull ∉ deployEffects opts remoteEmpty changedNonempty ∧
    DeployEffect.uploadDelta ∉ deployEffects opts remoteEmpty changedNonempty ∧
    DeployEffect.activate ∉ deployEffects opts remoteEmpty changedNonempty ∧
    DeployEffect.cleanup ∉ deployEffects opts remoteEmpty changedNonempty ∧
    DeployEffect.healthCheck ∉ deployEffects opts remoteEmpty changedNonempty ∧
    DeployEffect.writeLocalManifest ∈ deployEffects opts remoteEmpty changedNonempty := by
  cases hnb : opts.noBuild <;>
    simp [deployEffects, h, hnb]

theorem deploy_dryRun_no_deployer_mutation_witness :
    DeployEffect.activate ∉ deployEffects ⟨"", true, false, false⟩ false true :=
  (deploy_dryRun_no_deployer_mutation ⟨"", true, false, false⟩ false true rfl).2.2.2.1

end Juniper
